import Mathlib

/-!
# Verification of the Holochain Cascade resolver and typed-hash model

Shallow embedding of:
* `crates/holochain/src/core/state/cascade.rs` (the Cascade resolver),
* `crates/holo_hash/src/hash_type/primitive.rs` (primitive hash-type serde),
* `crates/zome_types/src/entry.rs` (the `Entry` size limit).

Pure Rust functions become Lean functions; the vault/cache stores become
explicit record fields of a `CascadeState`; the network merge performed by
`fetch_element_via_entry` / `fetch_element_via_header` / `fetch_links`
(whose cache-integration goes through `integrate_single_metadata`, outside
the shown source) is modelled as an abstract cache update that performs
exactly one network call.  Public operations return their result paired
with the number of network calls made.
-/

namespace Holochain

/-- Raw digest bytes of a hash (Rust `&[u8]` compared with slice `Ord`). -/
abbrev Bytes := List Nat

/-- A header address (raw bytes of a `HeaderHash`). -/
abbrev HeaderHash := Bytes

/-- An entry address (raw bytes of an `EntryHash`). -/
abbrev EntryHash := Bytes

/-- Modelled from the spec: `TimedHeaderHash` (in `holochain_types::metadata`,
not among the shown sources): "(timestamp, header hash) — ordering key; ties
broken by hash. Ordered ascending by time; oldest = minimum under this
order." -/
structure TimedHeaderHash where
  timestamp : Nat
  header_hash : HeaderHash
deriving DecidableEq, Repr

/-- Strict lexicographic order on byte strings (Rust slice `Ord`:
elementwise, a strict prefix is smaller). -/
def bytesLt : Bytes → Bytes → Bool
  | [], [] => false
  | [], _ :: _ => true
  | _ :: _, [] => false
  | a :: as, b :: bs => if a < b then true else if b < a then false else bytesLt as bs

/-- Strict order on `TimedHeaderHash`: ascending timestamp, ties broken by
ascending header-hash bytes. -/
def thhLt (a b : TimedHeaderHash) : Bool :=
  if a.timestamp < b.timestamp then true
  else if b.timestamp < a.timestamp then false
  else bytesLt a.header_hash b.header_hash

theorem bytesLt_irrefl (a : Bytes) : bytesLt a a = false := by
  induction a with
  | nil => rfl
  | cons x xs ih => simp [bytesLt, ih]

theorem bytesLt_conn : ∀ a b : Bytes,
    bytesLt a b = false → bytesLt b a = false → a = b := by
  intro a
  induction a with
  | nil =>
    intro b hab _
    cases b with
    | nil => rfl
    | cons y ys => simp [bytesLt] at hab
  | cons x xs ih =>
    intro b hab hba
    cases b with
    | nil => simp [bytesLt] at hba
    | cons y ys =>
      simp only [bytesLt] at hab hba
      by_cases hxy : x < y
      · simp [hxy] at hab
      · by_cases hyx : y < x
        · simp [hyx, hxy] at hba
        · have hx : x = y := Nat.le_antisymm (Nat.not_lt.mp hyx) (Nat.not_lt.mp hxy)
          subst hx
          simp only [Nat.lt_irrefl, if_false] at hab hba
          rw [ih ys hab hba]

theorem bytesLt_asymm : ∀ a b : Bytes, bytesLt a b = true → bytesLt b a = false := by
  intro a
  induction a with
  | nil =>
    intro b hab
    cases b with
    | nil => simp [bytesLt] at hab
    | cons y ys => rfl
  | cons x xs ih =>
    intro b hab
    cases b with
    | nil => simp [bytesLt] at hab
    | cons y ys =>
      simp only [bytesLt] at hab ⊢
      by_cases hxy : x < y
      · have hyx : ¬ y < x := Nat.lt_asymm hxy
        simp [hxy, hyx]
      · by_cases hyx : y < x
        · simp [hxy, hyx] at hab
        · simp only [hxy, hyx, if_false] at hab ⊢
          exact ih ys hab

theorem bytesLt_trans : ∀ a b c : Bytes,
    bytesLt a b = true → bytesLt b c = true → bytesLt a c = true := by
  intro a
  induction a with
  | nil =>
    intro b c hab hbc
    cases b with
    | nil => simp [bytesLt] at hab
    | cons y ys =>
      cases c with
      | nil => simp [bytesLt] at hbc
      | cons z zs => rfl
  | cons x xs ih =>
    intro b c hab hbc
    cases b with
    | nil => simp [bytesLt] at hab
    | cons y ys =>
      cases c with
      | nil => simp [bytesLt] at hbc
      | cons z zs =>
        simp only [bytesLt] at hab hbc ⊢
        by_cases hxy : x < y
        · by_cases hyz : y < z
          · have : x < z := Nat.lt_trans hxy hyz
            simp [this]
          · by_cases hzy : z < y
            · simp [hyz, hzy] at hbc
            · have hy : y = z := Nat.le_antisymm (Nat.not_lt.mp hzy) (Nat.not_lt.mp hyz)
              subst hy
              simp [hxy]
        · by_cases hyx : y < x
          · simp [hxy, hyx] at hab
          · have hx : x = y := Nat.le_antisymm (Nat.not_lt.mp hyx) (Nat.not_lt.mp hxy)
            subst hx
            simp only [Nat.lt_irrefl, if_false] at hab
            by_cases hyz : x < z
            · simp [hyz]
            · by_cases hzy : z < x
              · simp [hyz, hzy] at hbc
              · simp only [hyz, hzy, if_false] at hbc ⊢
                exact ih ys zs hab hbc

theorem thhLt_irrefl (a : TimedHeaderHash) : thhLt a a = false := by
  simp [thhLt, bytesLt_irrefl]

theorem thhLt_conn {a b : TimedHeaderHash} :
    thhLt a b = false → thhLt b a = false → a = b := by
  intro hab hba
  unfold thhLt at hab hba
  by_cases h1 : a.timestamp < b.timestamp
  · simp [h1] at hab
  · by_cases h2 : b.timestamp < a.timestamp
    · simp [h2, h1] at hba
    · have ht : a.timestamp = b.timestamp :=
        Nat.le_antisymm (Nat.not_lt.mp h2) (Nat.not_lt.mp h1)
      simp only [h1, h2, ht, Nat.lt_irrefl, if_false] at hab hba
      obtain ⟨t1, h1⟩ := a
      obtain ⟨t2, h2⟩ := b
      simp only [TimedHeaderHash.mk.injEq]
      exact ⟨ht, bytesLt_conn _ _ hab hba⟩

theorem thhLt_asymm {a b : TimedHeaderHash} :
    thhLt a b = true → thhLt b a = false := by
  intro hab
  unfold thhLt at hab ⊢
  by_cases h1 : a.timestamp < b.timestamp
  · have h2 : ¬ b.timestamp < a.timestamp := Nat.lt_asymm h1
    simp [h1, h2]
  · by_cases h2 : b.timestamp < a.timestamp
    · simp [h1, h2] at hab
    · simp only [h1, h2, if_false] at hab ⊢
      exact bytesLt_asymm _ _ hab

theorem thhLt_trans {a b c : TimedHeaderHash} :
    thhLt a b = true → thhLt b c = true → thhLt a c = true := by
  intro hab hbc
  unfold thhLt at hab hbc ⊢
  by_cases h1 : a.timestamp < b.timestamp
  · by_cases h2 : b.timestamp < c.timestamp
    · have : a.timestamp < c.timestamp := Nat.lt_trans h1 h2
      simp [this]
    · by_cases h3 : c.timestamp < b.timestamp
      · simp [h2, h3] at hbc
      · have he : b.timestamp = c.timestamp :=
          Nat.le_antisymm (Nat.not_lt.mp h3) (Nat.not_lt.mp h2)
        rw [← he]
        simp [h1]
  · by_cases h2 : b.timestamp < a.timestamp
    · simp [h1, h2] at hab
    · have he : a.timestamp = b.timestamp :=
        Nat.le_antisymm (Nat.not_lt.mp h2) (Nat.not_lt.mp h1)
      simp only [h1, h2, if_false] at hab
      by_cases h3 : b.timestamp < c.timestamp
      · rw [he]
        simp [h3]
      · by_cases h4 : c.timestamp < b.timestamp
        · simp [h3, h4] at hbc
        · simp only [h3, h4, if_false] at hbc
          have he2 : a.timestamp = c.timestamp := by
            rw [he]
            exact Nat.le_antisymm (Nat.not_lt.mp h4) (Nat.not_lt.mp h3)
          simp only [he2, Nat.lt_irrefl, if_false]
          exact bytesLt_trans _ _ _ hab hbc

/-- One step of Rust `Iterator::min` over `TimedHeaderHash`es: keep the
smaller of the accumulator and the next item (the earlier one on ties). -/
def minStep (a y : TimedHeaderHash) : TimedHeaderHash :=
  if thhLt y a then y else a

/-- Rust `Iterator::min`: `none` on an empty iterator, otherwise the least
element under `thhLt`. -/
def minTHH : List TimedHeaderHash → Option TimedHeaderHash
  | [] => none
  | x :: xs => some (xs.foldl minStep x)

theorem minFold_mem : ∀ (xs : List TimedHeaderHash) (a : TimedHeaderHash),
    xs.foldl minStep a = a ∨ xs.foldl minStep a ∈ xs := by
  intro xs
  induction xs with
  | nil => intro a; exact Or.inl rfl
  | cons y ys ih =>
    intro a
    simp only [List.foldl_cons]
    rcases ih (minStep a y) with h | h
    · rw [h]
      unfold minStep
      by_cases hlt : thhLt y a
      · simp only [hlt, if_true]
        exact Or.inr (List.mem_cons_self _ _)
      · simp only [hlt, if_false]
        exact Or.inl rfl
    · exact Or.inr (List.mem_cons_of_mem _ h)

theorem minFold_min : ∀ (xs : List TimedHeaderHash) (a x : TimedHeaderHash),
    (x = a ∨ x ∈ xs) → thhLt x (xs.foldl minStep a) = false := by
  intro xs
  induction xs with
  | nil =>
    intro a x hx
    rcases hx with hx | hx
    · subst hx; exact thhLt_irrefl x
    · exact absurd hx (List.not_mem_nil x)
  | cons y ys ih =>
    intro a x hx
    simp only [List.foldl_cons]
    by_cases hlt : thhLt y a = true
    · rw [show minStep a y = y from by simp [minStep, hlt]]
      rcases hx with hx | hx
      · -- x is the old accumulator: y sits strictly below it
        cases hres : thhLt x (ys.foldl minStep y) with
        | false => rfl
        | true =>
          exfalso
          have hyx : thhLt y x = true := by rw [hx]; exact hlt
          have hcon : thhLt y (ys.foldl minStep y) = true := thhLt_trans hyx hres
          rw [ih y y (Or.inl rfl)] at hcon
          exact Bool.false_ne_true hcon
      · rcases List.mem_cons.mp hx with hx | hx
        · rw [hx]; exact ih y y (Or.inl rfl)
        · exact ih y x (Or.inr hx)
    · have hlt' : thhLt y a = false := by simpa using hlt
      rw [show minStep a y = a from by simp [minStep, hlt']]
      rcases hx with hx | hx
      · exact ih a x (Or.inl hx)
      · rcases List.mem_cons.mp hx with hx | hx
        · -- x is the skipped item: it is not below the old accumulator
          cases hres : thhLt x (ys.foldl minStep a) with
          | false => rfl
          | true =>
            exfalso
            have hxa : thhLt x a = false := by rw [hx]; exact hlt'
            have har : thhLt a (ys.foldl minStep a) = false := ih a a (Or.inl rfl)
            by_cases hax : thhLt a x = true
            · have hcon : thhLt a (ys.foldl minStep a) = true := thhLt_trans hax hres
              rw [har] at hcon
              exact Bool.false_ne_true hcon
            · have hax' : thhLt a x = false := by simpa using hax
              have he : a = x := thhLt_conn hax' hxa
              rw [← he] at hres
              rw [har] at hres
              exact Bool.false_ne_true hres
        · exact ih a x (Or.inr hx)

/-- `Iterator::min` returns the unique minimum when one exists. -/
theorem minTHH_eq_of_min {l : List TimedHeaderHash} {m : TimedHeaderHash}
    (hmem : m ∈ l) (hmin : ∀ x ∈ l, thhLt x m = false) : minTHH l = some m := by
  cases l with
  | nil => exact absurd hmem (List.not_mem_nil m)
  | cons x xs =>
    rw [show minTHH (x :: xs) = some (xs.foldl minStep x) from rfl]
    have hrmem : xs.foldl minStep x ∈ x :: xs := by
      rcases minFold_mem xs x with h | h
      · rw [h]; exact List.mem_cons_self _ _
      · exact List.mem_cons_of_mem _ h
    have h1 : thhLt (xs.foldl minStep x) m = false := hmin _ hrmem
    have h2 : thhLt m (xs.foldl minStep x) = false := by
      rcases List.mem_cons.mp hmem with h | h
      · exact minFold_min xs x m (Or.inl h)
      · exact minFold_min xs x m (Or.inr h)
    rw [thhLt_conn h1 h2]

/-- Insertion into a strictly-ascending duplicate-free list: the model of
`BTreeSet<TimedHeaderHash>` insertion. -/
def insertTHH (x : TimedHeaderHash) : List TimedHeaderHash → List TimedHeaderHash
  | [] => [x]
  | y :: ys =>
    if thhLt x y then x :: y :: ys
    else if x = y then y :: ys
    else y :: insertTHH x ys

/-- Model of collecting an iterator into a `BTreeSet<TimedHeaderHash>`:
the result is strictly ascending and duplicate-free. -/
def sortedDedup (l : List TimedHeaderHash) : List TimedHeaderHash :=
  l.foldr insertTHH []

theorem mem_insertTHH {a x : TimedHeaderHash} : ∀ {l : List TimedHeaderHash},
    (a ∈ insertTHH x l ↔ a = x ∨ a ∈ l) := by
  intro l
  induction l with
  | nil => simp [insertTHH]
  | cons y ys ih =>
    rw [show insertTHH x (y :: ys)
        = if thhLt x y then x :: y :: ys
          else if x = y then y :: ys
          else y :: insertTHH x ys from rfl]
    by_cases h1 : thhLt x y = true
    · rw [if_pos h1]
      simp [List.mem_cons]
    · rw [if_neg h1]
      by_cases h2 : x = y
      · rw [if_pos h2]
        subst h2
        constructor
        · intro h; exact Or.inr h
        · intro h
          rcases h with h | h
          · rw [h]; exact List.mem_cons_self _ _
          · exact h
      · rw [if_neg h2]
        rw [List.mem_cons, ih, List.mem_cons]
        tauto

theorem mem_sortedDedup {a : TimedHeaderHash} : ∀ {l : List TimedHeaderHash},
    (a ∈ sortedDedup l ↔ a ∈ l) := by
  intro l
  induction l with
  | nil => simp [sortedDedup]
  | cons x xs ih =>
    simp only [sortedDedup, List.foldr_cons] at *
    rw [mem_insertTHH, ih, List.mem_cons]

/-- The strict-ascending chain predicate for sorted `TimedHeaderHash` lists. -/
def AscChain (l : List TimedHeaderHash) : Prop :=
  List.Pairwise (fun a b => thhLt a b = true) l

theorem ascChain_insertTHH {x : TimedHeaderHash} : ∀ {l : List TimedHeaderHash},
    AscChain l → AscChain (insertTHH x l) := by
  intro l
  induction l with
  | nil =>
    intro _
    exact List.pairwise_singleton _ x
  | cons y ys ih =>
    intro hp
    rcases List.pairwise_cons.mp hp with ⟨hy, hys⟩
    rw [show insertTHH x (y :: ys)
        = if thhLt x y then x :: y :: ys
          else if x = y then y :: ys
          else y :: insertTHH x ys from rfl]
    by_cases h1 : thhLt x y = true
    · rw [if_pos h1]
      refine List.pairwise_cons.mpr ⟨?_, hp⟩
      intro b hb
      rcases List.mem_cons.mp hb with hb | hb
      · rw [hb]; exact h1
      · exact thhLt_trans h1 (hy b hb)
    · rw [if_neg h1]
      by_cases h2 : x = y
      · rw [if_pos h2]
        exact hp
      · rw [if_neg h2]
        refine List.pairwise_cons.mpr ⟨?_, ih hys⟩
        intro b hb
        rcases mem_insertTHH.mp hb with hb | hb
        · rw [hb]
          cases h : thhLt y x with
          | true => rfl
          | false => exact absurd (thhLt_conn h (by simpa using h1)).symm h2
        · exact hy b hb

theorem ascChain_sortedDedup : ∀ (l : List TimedHeaderHash),
    AscChain (sortedDedup l) := by
  intro l
  induction l with
  | nil => exact List.Pairwise.nil
  | cons x xs ih =>
    simp only [sortedDedup, List.foldr_cons] at *
    exact ascChain_insertTHH ih

/-! ## Data model: headers, elements, link metadata -/

/-- The header of an element, reduced to what the Cascade inspects: whether
it carries entry data (`entry_data()`), and its concrete type for the
`TryFrom<Header>` conversions to `CreateLink` / `DeleteLink`.  Payload `Nat`s
stand for the remaining fields. -/
inductive HeaderData
  | create (eh : EntryHash)
  | update (eh : EntryHash)
  | delete (deletesAddress : HeaderHash)
  | createLink (c : Nat)
  | deleteLink (d : Nat)
  | other (o : Nat)
deriving DecidableEq, Repr

/-- `Header::entry_data()`: the entry hash carried by entry-bearing headers. -/
def HeaderData.entryData : HeaderData → Option EntryHash
  | .create eh => some eh
  | .update eh => some eh
  | _ => none

/-- An `Element` as the Cascade sees it: its header address
(`header_address()`) and its header. -/
structure Element where
  headerHash : HeaderHash
  header : HeaderData
deriving DecidableEq, Repr

/-- `EntryDhtStatus` (`holochain_types::metadata`), as listed in the match
arms of `dht_get_entry`. -/
inductive EntryDhtStatus
  | Live
  | Dead
  | Pending
  | Rejected
  | Abandoned
  | Conflict
  | Withdrawn
  | Purged
deriving DecidableEq, Repr

/-- A link query key (`LinkMetaKey`), opaque to the resolver. -/
abbrev LinkKey := Nat

/-- Modelled from the spec: a `LinkMetaVal` held in the metadata store for a
link key: the link-add header hash, its timestamp, and the link payload
(`into_link` target/tag data).  (`holochain_state::metadata` is not among
the shown sources.) -/
structure LinkMetaVal where
  linkAddHash : HeaderHash
  timestamp : Nat
  target : EntryHash
  tag : Nat
deriving DecidableEq, Repr

/-- A `Link` as returned to the caller. -/
structure Link where
  target : EntryHash
  timestamp : Nat
  tag : Nat
deriving DecidableEq, Repr

/-- `LinkMetaVal::into_link`. -/
def intoLink (v : LinkMetaVal) : Link :=
  { target := v.target, timestamp := v.timestamp, tag := v.tag }

/-! ## Stores -/

/-- An `ElementBuf` instance (vault or cache): content-addressed lookup of
elements by header hash. -/
structure ElementStore where
  getElement : HeaderHash → Option Element

/-- Modelled from the spec: the queryable content of one `MetadataBuf`
instance (`holochain_state::metadata` is not among the shown sources; §4.2
of the spec lists these operations, all pure reads of the store's current
content). -/
structure MetaStore where
  headers : EntryHash → List TimedHeaderHash
  deletesOnHeader : HeaderHash → List TimedHeaderHash
  dhtStatus : EntryHash → EntryDhtStatus
  registeredStoreElement : HeaderHash → Bool
  registeredStoreEntry : EntryHash → HeaderHash → Bool
  linksAll : LinkKey → List LinkMetaVal
  linkRemoves : HeaderHash → List TimedHeaderHash

/-- Modelled from the spec: `get_live_links` — "live links (creates with
zero registered removes)". -/
def getLiveLinks (m : MetaStore) (k : LinkKey) : List LinkMetaVal :=
  (m.linksAll k).filter (fun v => (m.linkRemoves v.linkAddHash).isEmpty)

/-- The stores one `Cascade` instance reads: vault element/meta stores
(read-only) and cache element/meta stores. -/
structure CascadeState where
  elementVault : ElementStore
  metaVault : MetaStore
  elementCache : ElementStore
  metaCache : MetaStore

/-- Modelled from the spec: the network fetch-and-merge steps
(`fetch_element_via_entry`, `fetch_element_via_header`, `fetch_links`).
Each performs exactly one `network.get`/`get_links` call and merges the
responses into the cache stores only (`update_stores` writes
`element_cache`/`meta_cache`; the merge itself goes through
`integrate_single_metadata`, outside the shown sources).  Modelled as
arbitrary cache rewrites. -/
structure FetchModel where
  fetchEntry : EntryHash → CascadeState → ElementStore × MetaStore
  fetchHeader : HeaderHash → CascadeState → ElementStore × MetaStore
  fetchLinks : LinkKey → CascadeState → ElementStore × MetaStore

/-- State after `fetch_element_via_entry`: caches replaced, vault untouched. -/
def applyFetchEntry (f : FetchModel) (eh : EntryHash) (s : CascadeState) : CascadeState :=
  { s with elementCache := (f.fetchEntry eh s).1, metaCache := (f.fetchEntry eh s).2 }

/-- State after `fetch_element_via_header`: caches replaced, vault untouched. -/
def applyFetchHeader (f : FetchModel) (hh : HeaderHash) (s : CascadeState) : CascadeState :=
  { s with elementCache := (f.fetchHeader hh s).1, metaCache := (f.fetchHeader hh s).2 }

/-- State after `fetch_links`: caches replaced, vault untouched. -/
def applyFetchLinks (f : FetchModel) (k : LinkKey) (s : CascadeState) : CascadeState :=
  { s with elementCache := (f.fetchLinks k s).1, metaCache := (f.fetchLinks k s).2 }

/-- A network that returns nothing new: the caches are left as they are. -/
def idFetch : FetchModel :=
  { fetchEntry := fun _ s => (s.elementCache, s.metaCache)
    fetchHeader := fun _ s => (s.elementCache, s.metaCache)
    fetchLinks := fun _ s => (s.elementCache, s.metaCache) }

/-! ## Local resolution helpers (`cascade.rs`) -/

/-- `Cascade::valid_header`: the header is registered as a stored element in
the vault or cache metadata. -/
def valid_header (s : CascadeState) (hh : HeaderHash) : Bool :=
  s.metaVault.registeredStoreElement hh || s.metaCache.registeredStoreElement hh

/-- `Cascade::valid_element`: a valid reason to return an element — either
`valid_header`, or (for entry-bearing headers) the specific (entry, header)
pairing is registered in cache or vault. -/
def valid_element (s : CascadeState) (hh : HeaderHash) (ehOpt : Option EntryHash) : Bool :=
  valid_header s hh ||
    (match ehOpt with
     | some eh => s.metaCache.registeredStoreEntry eh hh
         || s.metaVault.registeredStoreEntry eh hh
     | none => false)

/-- `Cascade::get_element_local_raw`: vault first, cache second, then the
`valid_element` gate. -/
def get_element_local_raw (s : CascadeState) (hh : HeaderHash) : Option Element :=
  let r := match s.elementVault.getElement hh with
           | none => s.elementCache.getElement hh
           | r => r
  match r with
  | some el => if valid_element s el.headerHash el.header.entryData then some el else none
  | none => none

/-- The first locally-held element along a header list
(the loop body of `get_element_local_raw_via_entry`). -/
def firstHeld (s : CascadeState) : List TimedHeaderHash → Option Element
  | [] => none
  | h :: rest =>
    match get_element_local_raw s h.header_hash with
    | some el => some el
    | none => firstHeld s rest

/-- `Cascade::get_element_local_raw_via_entry`: collect the headers known to
cache and vault metadata into a `BTreeSet`, then walk them in reverse
(newest first), returning the first element actually held. -/
def get_element_local_raw_via_entry (s : CascadeState) (eh : EntryHash) : Option Element :=
  firstHeld s (sortedDedup (s.metaCache.headers eh ++ s.metaVault.headers eh)).reverse

/-! ## The Cascade operations (`cascade.rs`) -/

/-- Failure modes surfaced by the embedded operations: the
`.expect("Status is live but no headers?")` defect in `dht_get_entry`, and
the `TryFrom<Header>` conversion failure propagated by `?` in
`get_link_details`. -/
inductive CErr
  | assertLiveNoHeaders
  | wrongHeader
deriving DecidableEq, Repr

/-- The `Search` state used while walking from entry to header. -/
inductive Search
  | Found (el : Element)
  | Continue (hh : HeaderHash)
  | NotInCascade
deriving DecidableEq, Repr

/-- The headers on an entry with no delete registered against them in the
same metadata store (the `filter_map` in `dht_get_entry`). -/
def undeletedHeaders (m : MetaStore) (eh : EntryHash) : List TimedHeaderHash :=
  (m.headers eh).filter (fun h => (m.deletesOnHeader h.header_hash).isEmpty)

/-- The status/oldest-live-header resolution step of `dht_get_entry`
(lines 518–555), applied to the post-fetch state. -/
def dhtGetEntrySearch (s : CascadeState) (eh : EntryHash) : Except CErr Search :=
  match s.metaCache.dhtStatus eh with
  | .Live =>
    match minTHH (undeletedHeaders s.metaCache eh) with
    | none => .error .assertLiveNoHeaders
    | some oldest =>
      match get_element_local_raw s oldest.header_hash with
      | some el => .ok (.Found el)
      | none => .ok (.Continue oldest.header_hash)
  | _ => .ok .NotInCascade

/-- `Cascade::dht_get_header`: check vault+cache for a registered delete on
the header before touching the network; on a local tombstone return `None`
with no network call; otherwise fetch, re-check the cache, and only then
return the locally stored element.  Second component counts network calls. -/
def dhtGetHeader (f : FetchModel) (s0 : CascadeState) (hh : HeaderHash) :
    Option Element × Nat :=
  let foundLocalDelete :=
    !(s0.metaCache.deletesOnHeader hh).isEmpty
      || !(s0.metaVault.deletesOnHeader hh).isEmpty
  if foundLocalDelete then (none, 0)
  else
    let s := applyFetchHeader f hh s0
    if (s.metaCache.deletesOnHeader hh).isEmpty then
      (get_element_local_raw s hh, 1)
    else (none, 1)

/-- `Cascade::dht_get_entry`: fetch-and-merge from the network, then resolve
the oldest live header from the cache metadata; recurse through
`dht_get_header` when its element is not held locally.  Second component
counts network calls. -/
def dhtGetEntry (f : FetchModel) (s0 : CascadeState) (eh : EntryHash) :
    Except CErr (Option Element) × Nat :=
  let s := applyFetchEntry f eh s0
  match dhtGetEntrySearch s eh with
  | .error e => (.error e, 1)
  | .ok (.Found el) => (.ok (some el), 1)
  | .ok (.Continue hh) =>
    let r := dhtGetHeader f s hh
    (.ok r.1, 1 + r.2)
  | .ok .NotInCascade => (.ok none, 1)

/-- An address that may be an entry or a header address (`AnyDhtHash`). -/
inductive AnyDhtHash
  | entry (eh : EntryHash)
  | header (hh : HeaderHash)
deriving DecidableEq, Repr

/-- The purely local half of `Cascade::retrieve`: dispatch on the role tag
and resolve from vault+cache only. -/
def localResolve (s : CascadeState) : AnyDhtHash → Option Element
  | .entry eh => get_element_local_raw_via_entry s eh
  | .header hh => get_element_local_raw s hh

/-- `Cascade::retrieve`: return whatever is found locally; fall back to one
network fetch only when the address is absent locally; no liveness
filtering.  Second component counts network calls. -/
def retrieve (f : FetchModel) (s : CascadeState) : AnyDhtHash → Option Element × Nat
  | .entry eh =>
    match get_element_local_raw_via_entry s eh with
    | some e => (some e, 0)
    | none =>
      (get_element_local_raw_via_entry (applyFetchEntry f eh s) eh, 1)
  | .header hh =>
    match get_element_local_raw s hh with
    | some e => (some e, 0)
    | none =>
      (get_element_local_raw (applyFetchHeader f hh s) hh, 1)

/-- `Cascade::dht_get_links`: refresh the cache from the network for the
key, then return the live links (creates with zero registered removes)
read from the meta cache only.  Second component counts network calls. -/
def dhtGetLinks (f : FetchModel) (s0 : CascadeState) (k : LinkKey) :
    List Link × Nat :=
  let s := applyFetchLinks f k s0
  ((getLiveLinks s.metaCache k).map intoLink, 1)

/-- `TryFrom<Header> for CreateLink` as used through `Element::try_into`. -/
def tryIntoCreateLink (el : Element) : Except CErr Nat :=
  match el.header with
  | .createLink c => .ok c
  | _ => .error .wrongHeader

/-- `TryFrom<Header> for DeleteLink` as used through `Element::try_into`. -/
def tryIntoDeleteLink (el : Element) : Except CErr Nat :=
  match el.header with
  | .deleteLink d => .ok d
  | _ => .error .wrongHeader

/-- The remove-rendering loop of `get_link_details`: an unresolvable remove
is skipped, a resolvable one that fails conversion aborts with `?`. -/
def renderRemoves (s : CascadeState) : List TimedHeaderHash → Except CErr (List Nat)
  | [] => .ok []
  | t :: ts =>
    match get_element_local_raw s t.header_hash with
    | none => renderRemoves s ts
    | some el =>
      match tryIntoDeleteLink el with
      | .error e => .error e
      | .ok d =>
        match renderRemoves s ts with
        | .error e => .error e
        | .ok ds => .ok (d :: ds)

/-- The create-rendering loop of `get_link_details` over the `BTreeMap`
entries: an unresolvable create is skipped with its removes; a resolvable
header that fails `try_into` aborts the whole call with `?`. -/
def renderLinkDetails (s : CascadeState) :
    List TimedHeaderHash → Except CErr (List (Nat × List Nat))
  | [] => .ok []
  | la :: rest =>
    match get_element_local_raw s la.header_hash with
    | none => renderLinkDetails s rest
    | some el =>
      match renderRemoves s (sortedDedup (s.metaCache.linkRemoves la.header_hash)) with
      | .error e => .error e
      | .ok ds =>
        match tryIntoCreateLink el with
        | .error e => .error e
        | .ok c =>
          match renderLinkDetails s rest with
          | .error e => .error e
          | .ok restR => .ok ((c, ds) :: restR)

/-- The `BTreeMap` keys of `get_link_details`: every link-add for the key as
a `TimedHeaderHash`, in ascending deduplicated order. -/
def linkAddKeys (m : MetaStore) (k : LinkKey) : List TimedHeaderHash :=
  sortedDedup ((m.linksAll k).map
    (fun la => { timestamp := la.timestamp, header_hash := la.linkAddHash }))

/-- `Cascade::get_link_details`: refresh the cache from the network, collect
every CreateLink with its DeleteLinks ordered by time, and resolve each
header hash from the element stores.  Second component counts network
calls. -/
def getLinkDetails (f : FetchModel) (s0 : CascadeState) (k : LinkKey) :
    Except CErr (List (Nat × List Nat)) × Nat :=
  let s := applyFetchLinks f k s0
  (renderLinkDetails s (linkAddKeys s.metaCache k), 1)

/-! ## Primitive hash types (`holo_hash/src/hash_type/primitive.rs`) -/

/-- The seven primitive hash roles. -/
inductive PrimRole
  | agent
  | entry
  | dna
  | dhtOp
  | header
  | netId
  | wasm
deriving DecidableEq, Repr

/-- `AGENT_PREFIX`: the 3-byte role tag of agent keys. -/
def agentTagBytes : Bytes := [0x84, 0x20, 0x24]

/-- `ENTRY_PREFIX`. -/
def entryTagBytes : Bytes := [0x84, 0x21, 0x24]

/-- `DNA_PREFIX`. -/
def dnaTagBytes : Bytes := [0x84, 0x2d, 0x24]

/-- `DHTOP_PREFIX`. -/
def dhtOpTagBytes : Bytes := [0x84, 0x24, 0x24]

/-- `HEADER_PREFIX`. -/
def headerTagBytes : Bytes := [0x84, 0x29, 0x24]

/-- `NET_ID_PREFIX`. -/
def netIdTagBytes : Bytes := [0x84, 0x22, 0x24]

/-- `WASM_PREFIX`. -/
def wasmTagBytes : Bytes := [0x84, 0x2a, 0x24]

/-- `PrimitiveHashType::static_prefix` as a pure lookup. -/
def roleTagBytes : PrimRole → Bytes
  | .agent => agentTagBytes
  | .entry => entryTagBytes
  | .dna => dnaTagBytes
  | .dhtOp => dhtOpTagBytes
  | .header => headerTagBytes
  | .netId => netIdTagBytes
  | .wasm => wasmTagBytes

/-- The possible outcomes of the serde visitor for a primitive hash type:
success, a serde decode error (`serde::de::Error`, the `Err` arm of the
visitor's `Result`), or a Rust `panic` (process abort).  The source's
codomain is `Result`; the panic outcome models control escaping it. -/
inductive VisitOutcome
  | ok (r : PrimRole)
  | decodeErr
  | panicked
deriving DecidableEq, Repr

/-- `visit_bytes` of the per-role serde visitor: the incoming bytes are
matched against the role's own 3-byte tag; on a match the role is returned,
on anything else the source `panic!`s ("unknown hash prefix during hash
deserialization"). -/
def visitBytes (r : PrimRole) (v : Bytes) : VisitOutcome :=
  if v = roleTagBytes r then .ok r else .panicked

/-! ## Entry size limit (`zome_types/src/entry.rs`) -/

/-- `ENTRY_SIZE_LIMIT`: "Entries larger than this number of bytes cannot be
created", defined in the source as `16 * 1000 * 1000` with the comment
`// 16MiB`. -/
def ENTRY_SIZE_LIMIT : Nat := 16 * 1000 * 1000

/-! ## Link metadata registration (modelled from the spec)

`register_add_link` / `register_delete_link` live in
`holochain_state::metadata`, outside the shown sources.  Modelled from the
spec: the metadata store is an "append-only index from an address to the set
of … link-adds/removes that reference it". -/

/-- One link-metadata registration. -/
inductive LinkOp
  | add (k : LinkKey) (v : LinkMetaVal)
  | remove (addHash : HeaderHash) (t : TimedHeaderHash)
deriving DecidableEq, Repr

/-- Apply one registration to a metadata store (append-only). -/
def applyLinkOp (m : MetaStore) : LinkOp → MetaStore
  | .add k v =>
    { m with linksAll := fun k' => if k' = k then m.linksAll k' ++ [v] else m.linksAll k' }
  | .remove h t =>
    { m with linkRemoves := fun h' => if h' = h then m.linkRemoves h' ++ [t] else m.linkRemoves h' }

/-- Apply a sequence of registrations in order. -/
def applyLinkOps (m : MetaStore) (ops : List LinkOp) : MetaStore :=
  ops.foldl applyLinkOp m

/-- A metadata store with no content. -/
def emptyMeta : MetaStore :=
  { headers := fun _ => []
    deletesOnHeader := fun _ => []
    dhtStatus := fun _ => .Dead
    registeredStoreElement := fun _ => false
    registeredStoreEntry := fun _ _ => false
    linksAll := fun _ => []
    linkRemoves := fun _ => [] }

/-- An element store with no content. -/
def emptyElements : ElementStore :=
  { getElement := fun _ => none }

/-- A cascade state with empty vault and empty cache. -/
def emptyState : CascadeState :=
  { elementVault := emptyElements
    metaVault := emptyMeta
    elementCache := emptyElements
    metaCache := emptyMeta }

/-- The link-add registrations of a given key selected from an op sequence. -/
def opAdds (k : LinkKey) (op : LinkOp) : Option LinkMetaVal :=
  match op with
  | .add k' v => if k' = k then some v else none
  | .remove _ _ => none

/-- The link-remove registrations on a given add-hash selected from an op
sequence. -/
def opRemoves (h : HeaderHash) (op : LinkOp) : Option TimedHeaderHash :=
  match op with
  | .remove h' t => if h' = h then some t else none
  | .add _ _ => none

theorem applyLinkOps_linksAll : ∀ (ops : List LinkOp) (m : MetaStore) (k : LinkKey),
    (applyLinkOps m ops).linksAll k = m.linksAll k ++ ops.filterMap (opAdds k) := by
  intro ops
  induction ops with
  | nil => intro m k; simp [applyLinkOps]
  | cons op rest ih =>
    intro m k
    rw [show applyLinkOps m (op :: rest) = applyLinkOps (applyLinkOp m op) rest from rfl]
    rw [ih]
    cases op with
    | add k' v =>
      by_cases hk : k' = k
      · subst hk
        simp [applyLinkOp, opAdds, List.filterMap_cons]
      · simp [applyLinkOp, opAdds, hk, List.filterMap_cons, Ne.symm hk]
    | remove h t =>
      simp [applyLinkOp, opAdds, List.filterMap_cons]

theorem applyLinkOps_linkRemoves : ∀ (ops : List LinkOp) (m : MetaStore) (h : HeaderHash),
    (applyLinkOps m ops).linkRemoves h = m.linkRemoves h ++ ops.filterMap (opRemoves h) := by
  intro ops
  induction ops with
  | nil => intro m h; simp [applyLinkOps]
  | cons op rest ih =>
    intro m h
    rw [show applyLinkOps m (op :: rest) = applyLinkOps (applyLinkOp m op) rest from rfl]
    rw [ih]
    cases op with
    | add k' v =>
      simp [applyLinkOp, opRemoves, List.filterMap_cons]
    | remove h' t =>
      by_cases hh : h' = h
      · subst hh
        simp [applyLinkOp, opRemoves, List.filterMap_cons]
      · simp [applyLinkOp, opRemoves, hh, List.filterMap_cons, Ne.symm hh]

/-! ## Helper lemmas about the resolution phase -/

theorem dhtGetEntrySearch_nonlive {s : CascadeState} {eh : EntryHash}
    (h : s.metaCache.dhtStatus eh ≠ .Live) :
    dhtGetEntrySearch s eh = .ok .NotInCascade := by
  unfold dhtGetEntrySearch
  cases hst : s.metaCache.dhtStatus eh
  case Live => exact absurd hst h
  all_goals rfl

theorem dhtGetEntrySearch_found {s : CascadeState} {eh : EntryHash}
    {m : TimedHeaderHash} {e : Element}
    (hlive : s.metaCache.dhtStatus eh = .Live)
    (hmin : minTHH (undeletedHeaders s.metaCache eh) = some m)
    (hel : get_element_local_raw s m.header_hash = some e) :
    dhtGetEntrySearch s eh = .ok (.Found e) := by
  unfold dhtGetEntrySearch
  rw [hlive, hmin]
  dsimp only
  rw [hel]

theorem dhtGetEntrySearch_empty {s : CascadeState} {eh : EntryHash}
    (hlive : s.metaCache.dhtStatus eh = .Live)
    (hempty : undeletedHeaders s.metaCache eh = []) :
    dhtGetEntrySearch s eh = .error .assertLiveNoHeaders := by
  unfold dhtGetEntrySearch
  rw [hlive, hempty]
  rfl

theorem dhtGetEntry_case_found {f : FetchModel} {s0 : CascadeState} {eh : EntryHash}
    {el : Element}
    (h : dhtGetEntrySearch (applyFetchEntry f eh s0) eh = .ok (.Found el)) :
    dhtGetEntry f s0 eh = (.ok (some el), 1) := by
  simp only [dhtGetEntry]
  rw [h]

theorem dhtGetEntry_case_notInCascade {f : FetchModel} {s0 : CascadeState} {eh : EntryHash}
    (h : dhtGetEntrySearch (applyFetchEntry f eh s0) eh = .ok .NotInCascade) :
    dhtGetEntry f s0 eh = (.ok none, 1) := by
  simp only [dhtGetEntry]
  rw [h]

theorem dhtGetEntry_case_error {f : FetchModel} {s0 : CascadeState} {eh : EntryHash}
    {e : CErr}
    (h : dhtGetEntrySearch (applyFetchEntry f eh s0) eh = .error e) :
    dhtGetEntry f s0 eh = (.error e, 1) := by
  simp only [dhtGetEntry]
  rw [h]

/-! ## Claim theorems -/

/-- Claim C1: when the derived status of an entry in the meta cache is Live,
`dht_get_entry` returns the element of the header that is minimal under
ascending `(timestamp, header-hash bytes)` among the headers with no delete
registered against them, here in the case that this element is held in a
local store (the hypotheses make the claim's presupposition — that the
minimal undeleted header's element exists — explicit). -/
theorem dht_get_entry_live_returns_oldest_undeleted
    (f : FetchModel) (s0 : CascadeState) (eh : EntryHash)
    (m : TimedHeaderHash) (e : Element)
    (hlive : (applyFetchEntry f eh s0).metaCache.dhtStatus eh = .Live)
    (hmem : m ∈ undeletedHeaders (applyFetchEntry f eh s0).metaCache eh)
    (hmin : ∀ x ∈ undeletedHeaders (applyFetchEntry f eh s0).metaCache eh,
      thhLt x m = false)
    (hel : get_element_local_raw (applyFetchEntry f eh s0) m.header_hash = some e) :
    dhtGetEntry f s0 eh = (.ok (some e), 1) := by
  have hm : minTHH (undeletedHeaders (applyFetchEntry f eh s0).metaCache eh) = some m :=
    minTHH_eq_of_min hmem hmin
  exact dhtGetEntry_case_found (dhtGetEntrySearch_found hlive hm hel)

/-- Witness for C1: a concrete Live entry with two undeleted headers; the
element of the older header (timestamp 1) is returned. -/
theorem dht_get_entry_live_returns_oldest_undeleted_witness :
    dhtGetEntry idFetch
      { emptyState with
        metaCache :=
          { emptyMeta with
            headers := fun eh => if eh = [9] then [⟨1, [1]⟩, ⟨2, [2]⟩] else []
            dhtStatus := fun eh => if eh = [9] then .Live else .Dead
            registeredStoreElement := fun hh => hh == [1] || hh == [2] }
        elementCache :=
          { getElement := fun hh =>
              if hh = [1] then some ⟨[1], .create [9]⟩
              else if hh = [2] then some ⟨[2], .create [9]⟩
              else none } }
      [9] = (.ok (some ⟨[1], .create [9]⟩), 1) := by
  apply dht_get_entry_live_returns_oldest_undeleted
      (m := ⟨1, [1]⟩) (e := ⟨[1], .create [9]⟩)
  · rfl
  · decide
  · decide
  · rfl

/-- Claim C2: for an entry whose derived status is any of the seven non-live
variants, `dht_get_entry` returns `None`, whatever the element stores hold. -/
theorem dht_get_entry_nonlive_returns_none
    (f : FetchModel) (s0 : CascadeState) (eh : EntryHash)
    (h : (applyFetchEntry f eh s0).metaCache.dhtStatus eh = .Dead
      ∨ (applyFetchEntry f eh s0).metaCache.dhtStatus eh = .Pending
      ∨ (applyFetchEntry f eh s0).metaCache.dhtStatus eh = .Rejected
      ∨ (applyFetchEntry f eh s0).metaCache.dhtStatus eh = .Abandoned
      ∨ (applyFetchEntry f eh s0).metaCache.dhtStatus eh = .Conflict
      ∨ (applyFetchEntry f eh s0).metaCache.dhtStatus eh = .Withdrawn
      ∨ (applyFetchEntry f eh s0).metaCache.dhtStatus eh = .Purged) :
    dhtGetEntry f s0 eh = (.ok none, 1) := by
  have hnl : (applyFetchEntry f eh s0).metaCache.dhtStatus eh ≠ .Live := by
    rcases h with h | h | h | h | h | h | h <;> rw [h] <;> intro hc <;> exact absurd hc (by intro hx; cases hx)
  exact dhtGetEntry_case_notInCascade (dhtGetEntrySearch_nonlive hnl)

/-- Witness for C2: a Dead entry whose element is physically present in the
cache element store is still not surfaced. -/
theorem dht_get_entry_nonlive_returns_none_witness :
    dhtGetEntry idFetch
      { emptyState with
        metaCache :=
          { emptyMeta with
            headers := fun eh => if eh = [9] then [⟨1, [1]⟩] else []
            dhtStatus := fun _ => .Dead
            registeredStoreElement := fun hh => hh == [1] }
        elementCache :=
          { getElement := fun hh =>
              if hh = [1] then some ⟨[1], .create [9]⟩ else none } }
      [9] = (.ok none, 1) := by
  apply dht_get_entry_nonlive_returns_none
  exact Or.inl rfl

/-- Claim C4: if the cache-derived status says Live but no header without a
registered delete exists, `dht_get_entry` surfaces the store-invariant
violation as the assertion-style defect (the `.expect` panic), not as a
silent `None`. -/
theorem dht_get_entry_live_no_header_asserts
    (f : FetchModel) (s0 : CascadeState) (eh : EntryHash)
    (hlive : (applyFetchEntry f eh s0).metaCache.dhtStatus eh = .Live)
    (hempty : undeletedHeaders (applyFetchEntry f eh s0).metaCache eh = []) :
    dhtGetEntry f s0 eh = (.error .assertLiveNoHeaders, 1) := by
  exact dhtGetEntry_case_error (dhtGetEntrySearch_empty hlive hempty)

/-- Witness for C4: status Live, one header, but a delete registered on it:
no undeleted header remains and the call fails loudly. -/
theorem dht_get_entry_live_no_header_asserts_witness :
    dhtGetEntry idFetch
      { emptyState with
        metaCache :=
          { emptyMeta with
            headers := fun eh => if eh = [9] then [⟨1, [1]⟩] else []
            deletesOnHeader := fun hh => if hh = [1] then [⟨5, [3]⟩] else []
            dhtStatus := fun eh => if eh = [9] then .Live else .Dead } }
      [9] = (.error .assertLiveNoHeaders, 1) := by
  apply dht_get_entry_live_no_header_asserts
  · rfl
  · decide

/-- Claim C3: a header with a delete registered in vault or cache metadata is
never returned by `dht_get_header`: when the delete is already known locally
the call returns `None` with zero network calls (the tombstone check runs
before the fetch), and when a delete is registered in the cache after the
fetch the header is still not returned. -/
theorem dht_get_header_tombstone
    (f : FetchModel) (s : CascadeState) (hh : HeaderHash) :
    ((s.metaCache.deletesOnHeader hh ≠ [] ∨ s.metaVault.deletesOnHeader hh ≠ []) →
      dhtGetHeader f s hh = (none, 0))
    ∧ ((applyFetchHeader f hh s).metaCache.deletesOnHeader hh ≠ [] →
      (dhtGetHeader f s hh).1 = none) := by
  constructor
  · intro h
    rcases h with h | h
    · cases hc : s.metaCache.deletesOnHeader hh with
      | nil => exact absurd hc h
      | cons a as => simp [dhtGetHeader, hc]
    · cases hv : s.metaVault.deletesOnHeader hh with
      | nil => exact absurd hv h
      | cons a as => simp [dhtGetHeader, hv]
  · intro hpost
    by_cases hloc : (!(s.metaCache.deletesOnHeader hh).isEmpty
        || !(s.metaVault.deletesOnHeader hh).isEmpty) = true
    · simp [dhtGetHeader, hloc]
    · cases hp : (applyFetchHeader f hh s).metaCache.deletesOnHeader hh with
      | nil => exact absurd hp hpost
      | cons a as => simp [dhtGetHeader, hloc, hp]

/-- Witness for C3: a header with a cache-registered delete yields
`(none, 0)`, and the post-fetch clause also applies to it. -/
theorem dht_get_header_tombstone_witness :
    dhtGetHeader idFetch
      { emptyState with
        metaCache := { emptyMeta with deletesOnHeader := fun hh => if hh = [1] then [⟨4, [2]⟩] else [] } }
      [1] = (none, 0) := by
  exact (dht_get_header_tombstone idFetch _ [1]).1 (Or.inl (by decide))

/-- Claim C5: `retrieve` answers from the local stores with zero network
calls whenever the address resolves locally (vault or cache, with its
metadata registration check), and consults the network only when the local
resolution comes up empty. -/
theorem retrieve_local_no_network
    (f : FetchModel) (s : CascadeState) (h : AnyDhtHash) :
    (∀ e, localResolve s h = some e → retrieve f s h = (some e, 0))
    ∧ ((retrieve f s h).2 ≠ 0 → localResolve s h = none) := by
  constructor
  · intro e he
    cases h with
    | entry eh =>
      simp only [localResolve] at he
      simp [retrieve, he]
    | header hh =>
      simp only [localResolve] at he
      simp [retrieve, he]
  · intro hn
    cases h with
    | entry eh =>
      cases hl : get_element_local_raw_via_entry s eh with
      | some e => exact absurd (by simp [retrieve, hl]) hn
      | none => simp [localResolve, hl]
    | header hh =>
      cases hl : get_element_local_raw s hh with
      | some e => exact absurd (by simp [retrieve, hl]) hn
      | none => simp [localResolve, hl]

/-- Witness for C5: a header element present in the cache and registered in
cache metadata is returned by `retrieve` with zero network calls. -/
theorem retrieve_local_no_network_witness :
    retrieve idFetch
      { emptyState with
        metaCache := { emptyMeta with registeredStoreElement := fun hh => hh == [1] }
        elementCache := { getElement := fun hh => if hh = [1] then some ⟨[1], .other 0⟩ else none } }
      (.header [1]) = (some ⟨[1], .other 0⟩, 0) := by
  exact (retrieve_local_no_network idFetch _ (.header [1])).1 ⟨[1], .other 0⟩ (by decide)

theorem firstHeld_of_newest (s : CascadeState) {m : TimedHeaderHash} {e : Element} :
    ∀ L : List TimedHeaderHash,
    List.Pairwise (fun a b => thhLt b a = true) L →
    m ∈ L →
    get_element_local_raw s m.header_hash = some e →
    (∀ h ∈ L, thhLt m h = true → get_element_local_raw s h.header_hash = none) →
    firstHeld s L = some e := by
  intro L
  induction L with
  | nil =>
    intro _ hm _ _
    exact absurd hm (List.not_mem_nil m)
  | cons a rest ih =>
    intro hp hm he hnone
    rcases List.pairwise_cons.mp hp with ⟨ha, hrest⟩
    rcases List.mem_cons.mp hm with hm | hm
    · simp only [firstHeld]
      rw [← hm, he]
    · have hma : thhLt m a = true := ha m hm
      have hna : get_element_local_raw s a.header_hash = none :=
        hnone a (List.mem_cons_self a rest) hma
      simp only [firstHeld]
      rw [hna]
      exact ih hrest hm he (fun h hh hlt => hnone h (List.mem_cons_of_mem a hh) hlt)

/-- The concrete state on which `retrieve` and `dht_get_entry` answer with
different elements for the same Live entry: two undeleted headers
(timestamps 1 and 2) with both elements held locally. -/
def divergeState : CascadeState :=
  { emptyState with
    metaCache :=
      { emptyMeta with
        headers := fun eh => if eh = [9] then [⟨1, [1]⟩, ⟨2, [2]⟩] else []
        dhtStatus := fun eh => if eh = [9] then .Live else .Dead
        registeredStoreElement := fun hh => hh == [1] || hh == [2] }
    elementCache :=
      { getElement := fun hh =>
          if hh = [1] then some ⟨[1], .create [9]⟩
          else if hh = [2] then some ⟨[2], .create [9]⟩
          else none } }

/-- Claim C10: the local resolution used by `retrieve` on an entry address
walks the known headers in descending `(timestamp, header-hash)` order and
returns the element of the newest locally-held header; consequently
`retrieve` can answer with a different element than `dht_get_entry` for the
same Live entry, as the concrete state `divergeState` shows. -/
theorem retrieve_entry_returns_newest_held :
    (∀ (f : FetchModel) (s : CascadeState) (eh : EntryHash)
        (m : TimedHeaderHash) (e : Element),
      m ∈ s.metaCache.headers eh ++ s.metaVault.headers eh →
      get_element_local_raw s m.header_hash = some e →
      (∀ h ∈ s.metaCache.headers eh ++ s.metaVault.headers eh,
        thhLt m h = true → get_element_local_raw s h.header_hash = none) →
      get_element_local_raw_via_entry s eh = some e ∧
        retrieve f s (.entry eh) = (some e, 0))
    ∧ (retrieve idFetch divergeState (.entry [9])).1 = some ⟨[2], .create [9]⟩
    ∧ (dhtGetEntry idFetch divergeState [9]).1 = .ok (some ⟨[1], .create [9]⟩)
    ∧ (⟨[1], .create [9]⟩ : Element) ≠ ⟨[2], .create [9]⟩ := by
  refine ⟨?_, rfl, rfl, by decide⟩
  intro f s eh m e hmem he hnone
  have hdesc : List.Pairwise (fun a b => thhLt b a = true)
      (sortedDedup (s.metaCache.headers eh ++ s.metaVault.headers eh)).reverse := by
    rw [List.pairwise_reverse]
    exact ascChain_sortedDedup _
  have hm' : m ∈ (sortedDedup (s.metaCache.headers eh ++ s.metaVault.headers eh)).reverse :=
    List.mem_reverse.mpr (mem_sortedDedup.mpr hmem)
  have hl : get_element_local_raw_via_entry s eh = some e := by
    unfold get_element_local_raw_via_entry
    exact firstHeld_of_newest s _ hdesc hm' he
      (fun h hh hlt => hnone h (mem_sortedDedup.mp (List.mem_reverse.mp hh)) hlt)
  exact ⟨hl, by simp [retrieve, hl]⟩

/-- Witness for C10: on `divergeState`, the newest held header (timestamp 2)
is the one `retrieve` resolves. -/
theorem retrieve_entry_returns_newest_held_witness :
    get_element_local_raw_via_entry divergeState [9] = some ⟨[2], .create [9]⟩ ∧
    retrieve idFetch divergeState (.entry [9]) = (some ⟨[2], .create [9]⟩, 0) :=
  retrieve_entry_returns_newest_held.1 idFetch divergeState [9] ⟨2, [2]⟩
    ⟨[2], .create [9]⟩ (by decide) (by decide) (by decide)

/-- Claim C7 counterexample: handing the agent visitor the entry role tag
makes the source `panic!`, which is not a serde decode error. -/
theorem visit_bytes_wrong_tag_panics :
    visitBytes .agent entryTagBytes = .panicked ∧
    visitBytes .agent entryTagBytes ≠ .decodeErr := by
  exact ⟨by decide, by decide⟩

/-- Claim C7 (amended): a byte sequence that does not match the expected
role's 3-byte tag makes deserialization panic (process abort) rather than
return, and a successful deserialization never reinterprets: it only ever
yields the expected role on exactly its own tag. -/
theorem visit_bytes_rejects_wrong_tag (r : PrimRole) (v : Bytes) :
    (v ≠ roleTagBytes r → visitBytes r v = .panicked)
    ∧ (∀ r', visitBytes r v = .ok r' → r' = r ∧ v = roleTagBytes r) := by
  constructor
  · intro h
    simp [visitBytes, h]
  · intro r' h
    by_cases hv : v = roleTagBytes r
    · unfold visitBytes at h
      rw [if_pos hv] at h
      cases h
      exact ⟨rfl, hv⟩
    · unfold visitBytes at h
      rw [if_neg hv] at h
      cases h

/-- Witness for C7 (amended): the entry visitor panics on the agent tag. -/
theorem visit_bytes_rejects_wrong_tag_witness :
    visitBytes .entry agentTagBytes = .panicked :=
  (visit_bytes_rejects_wrong_tag .entry agentTagBytes).1 (by decide)

/-- Claim C8: the source's `ENTRY_SIZE_LIMIT` is `16 * 1000 * 1000` =
16,000,000 bytes, which is not the 16 MiB = 16,777,216 bytes that its own
`// 16MiB` comment states. -/
theorem entry_size_limit_value :
    ENTRY_SIZE_LIMIT = 16000000 ∧ ENTRY_SIZE_LIMIT ≠ 16 * 1024 * 1024 := by
  exact ⟨by decide, by decide⟩

/-- A state with one locally-resolvable link-add on key `0` whose resolved
header is not a `CreateLink`. -/
def wrongHeaderLinkState : CascadeState :=
  { emptyState with
    metaCache :=
      { emptyMeta with
        linksAll := fun k => if k = 0 then [⟨[1], 0, [], 0⟩] else []
        registeredStoreElement := fun hh => hh == [1] }
    elementCache :=
      { getElement := fun hh => if hh = [1] then some ⟨[1], .other 0⟩ else none } }

/-- Claim C9 counterexample: a single locally-resolvable link-add whose
header fails the `CreateLink` conversion makes the whole `get_link_details`
call return the conversion error — the corrupt record is not skipped and no
partial result is returned. -/
theorem get_link_details_conversion_error_fails_call :
    getLinkDetails idFetch wrongHeaderLinkState 0 = (.error .wrongHeader, 1) := rfl

/-- Claim C9 (amended): `get_link_details` skips a create or remove header
that cannot be locally resolved, keeping the partial result; but a
locally-resolved header that fails to convert to the expected concrete type
(`CreateLink` for a create, `DeleteLink` for a remove) aborts the whole
call with the conversion error: a create-conversion failure aborts the
create rendering, a remove-conversion failure aborts the remove rendering,
and an erroring remove rendering aborts the create rendering in turn. -/
theorem get_link_details_skips_unresolvable :
    (∀ (s : CascadeState) (la : TimedHeaderHash) (rest : List TimedHeaderHash),
      get_element_local_raw s la.header_hash = none →
      renderLinkDetails s (la :: rest) = renderLinkDetails s rest)
    ∧ (∀ (s : CascadeState) (t : TimedHeaderHash) (ts : List TimedHeaderHash),
      get_element_local_raw s t.header_hash = none →
      renderRemoves s (t :: ts) = renderRemoves s ts)
    ∧ (∀ (s : CascadeState) (la : TimedHeaderHash) (rest : List TimedHeaderHash)
        (el : Element) (e : CErr) (ds : List Nat),
      get_element_local_raw s la.header_hash = some el →
      renderRemoves s (sortedDedup (s.metaCache.linkRemoves la.header_hash)) = .ok ds →
      tryIntoCreateLink el = .error e →
      renderLinkDetails s (la :: rest) = .error e)
    ∧ (∀ (s : CascadeState) (t : TimedHeaderHash) (ts : List TimedHeaderHash)
        (el : Element) (e : CErr),
      get_element_local_raw s t.header_hash = some el →
      tryIntoDeleteLink el = .error e →
      renderRemoves s (t :: ts) = .error e)
    ∧ (∀ (s : CascadeState) (la : TimedHeaderHash) (rest : List TimedHeaderHash)
        (el : Element) (e : CErr),
      get_element_local_raw s la.header_hash = some el →
      renderRemoves s (sortedDedup (s.metaCache.linkRemoves la.header_hash)) = .error e →
      renderLinkDetails s (la :: rest) = .error e) := by
  refine ⟨?_, ?_, ?_, ?_, ?_⟩
  · intro s la rest h
    simp only [renderLinkDetails, h]
  · intro s t ts h
    simp only [renderRemoves, h]
  · intro s la rest el e ds hel hds herr
    simp only [renderLinkDetails, hel, hds, herr]
  · intro s t ts el e hel herr
    simp only [renderRemoves, hel, herr]
  · intro s la rest el e hel hds
    simp only [renderLinkDetails, hel, hds]

/-- Witness for C9 (amended): a link-add that resolves to nothing locally is
skipped, leaving the rendering of the remaining list; and a resolved remove
whose header is not a `DeleteLink` aborts the remove rendering with the
conversion error. -/
theorem get_link_details_skips_unresolvable_witness :
    renderLinkDetails emptyState [⟨0, [3]⟩] = renderLinkDetails emptyState []
    ∧ renderRemoves wrongHeaderLinkState [⟨0, [1]⟩] = .error .wrongHeader :=
  ⟨get_link_details_skips_unresolvable.1 emptyState ⟨0, [3]⟩ [] rfl,
    get_link_details_skips_unresolvable.2.2.2.1 wrongHeaderLinkState ⟨0, [1]⟩ []
      ⟨[1], .other 0⟩ .wrongHeader rfl rfl⟩

/-- A state whose vault metadata holds one live link create on key `0` while
the cache is empty. -/
def vaultOnlyLinkState : CascadeState :=
  { emptyState with
    metaVault :=
      { emptyMeta with linksAll := fun k => if k = 0 then [⟨[5], 3, [7], 1⟩] else [] } }

/-- Claim C6 counterexample: a create with zero removes registered only in
the vault metadata is a live link there, yet `dht_get_links` returns the
empty list — the vault is never consulted, only the meta cache is read. -/
theorem dht_get_links_ignores_vault :
    dhtGetLinks idFetch vaultOnlyLinkState 0 = ([], 1)
    ∧ getLiveLinks vaultOnlyLinkState.metaVault 0 = [⟨[5], 3, [7], 1⟩] :=
  ⟨rfl, rfl⟩

theorem mem_filterMap_opAdds {ops : List LinkOp} {k : LinkKey} {v : LinkMetaVal} :
    v ∈ ops.filterMap (opAdds k) ↔ LinkOp.add k v ∈ ops := by
  rw [List.mem_filterMap]
  constructor
  · rintro ⟨op, hop, he⟩
    cases op with
    | add k' v' =>
      simp only [opAdds] at he
      by_cases hk : k' = k
      · rw [if_pos hk] at he
        injection he with hv
        subst hv
        subst hk
        exact hop
      · rw [if_neg hk] at he
        exact Option.noConfusion he
    | remove h t =>
      simp only [opAdds] at he
      exact Option.noConfusion he
  · intro h
    refine ⟨LinkOp.add k v, h, ?_⟩
    simp [opAdds]

theorem filterMap_opRemoves_nil_iff {ops : List LinkOp} {h : HeaderHash} :
    (ops.filterMap (opRemoves h)).isEmpty = true ↔
      ∀ t, LinkOp.remove h t ∉ ops := by
  rw [List.isEmpty_iff, List.filterMap_eq_nil_iff]
  constructor
  · intro hall t ht
    have hc := hall _ ht
    simp [opRemoves] at hc
  · intro hno op hop
    cases op with
    | add k v => simp [opRemoves]
    | remove h' t =>
      simp only [opRemoves]
      by_cases hh : h' = h
      · subst hh
        exact absurd hop (hno t)
      · rw [if_neg hh]

/-- Claim C6 (amended): for a meta cache built by any sequence of link
registrations, `dht_get_links` returns exactly the creates with zero
registered removes — read from the meta cache only (the vault is not
consulted, see the counterexample) — and the result is determined by which
registrations occurred, not by their order. -/
theorem dht_get_links_cache_exact (ops : List LinkOp) (k : LinkKey) (link : Link) :
    link ∈ (dhtGetLinks idFetch
        { emptyState with metaCache := applyLinkOps emptyMeta ops } k).1
    ↔ ∃ v, LinkOp.add k v ∈ ops ∧ intoLink v = link
        ∧ ∀ t, LinkOp.remove v.linkAddHash t ∉ ops := by
  rw [show (dhtGetLinks idFetch
        { emptyState with metaCache := applyLinkOps emptyMeta ops } k).1
      = (getLiveLinks (applyLinkOps emptyMeta ops) k).map intoLink from rfl]
  unfold getLiveLinks
  simp only [applyLinkOps_linksAll, applyLinkOps_linkRemoves, emptyMeta, List.nil_append]
  rw [List.mem_map]
  constructor
  · rintro ⟨v, hv, hlink⟩
    rcases List.mem_filter.mp hv with ⟨hmem, hlive⟩
    exact ⟨v, mem_filterMap_opAdds.mp hmem, hlink,
      filterMap_opRemoves_nil_iff.mp hlive⟩
  · rintro ⟨v, hmem, hlink, hno⟩
    exact ⟨v, List.mem_filter.mpr
      ⟨mem_filterMap_opAdds.mpr hmem, filterMap_opRemoves_nil_iff.mpr hno⟩, hlink⟩

/-- A registration sequence with one remove on an unrelated add-hash
followed by one add on key `0`. -/
def c6WitnessOps : List LinkOp :=
  [.remove [8] ⟨1, [2]⟩, .add 0 ⟨[5], 3, [7], 1⟩]

/-- Witness for C6 (amended): one add registered after an unrelated remove
still surfaces as a live link. -/
theorem dht_get_links_cache_exact_witness :
    (⟨[7], 3, 1⟩ : Link) ∈ (dhtGetLinks idFetch
      { emptyState with metaCache := applyLinkOps emptyMeta c6WitnessOps } 0).1 :=
  (dht_get_links_cache_exact c6WitnessOps 0 ⟨[7], 3, 1⟩).mpr
    ⟨⟨[5], 3, [7], 1⟩, by simp [c6WitnessOps], rfl,
      fun t ht => by simp [c6WitnessOps] at ht⟩

end Holochain
